import Mathlib

set_option maxHeartbeats 1000000

/-!
Verification development for the résumé-ranking script `IA_filtros.py`
(TF-IDF + cosine-similarity candidate ranking).  Python strings are
modelled as `String`/`List Char`; the PyPDF2 / pandas / scikit-learn
library calls are modelled by the documented behaviour the script relies
on, with the file system abstracted as the list of directory entries
together with the outcome of reading each file.
-/

namespace IAFiltros

/-- ASCII whitespace: the characters the script's text processing treats as
blank (the regex class `\s`, `str.split()`, `str.strip()`). -/
def esBlanco (c : Char) : Bool :=
  c = ' ' || c = '\t' || c = '\n' || c = '\x0b' || c = '\x0c' || c = '\r'

/-- The letters of the regex character class `[a-záéíóúñ]` used by
`limpiar_texto` (line 57) and `extraer_nombre` (line 46). -/
def esLetra (c : Char) : Bool :=
  ('a' ≤ c && c ≤ 'z') || c = 'á' || c = 'é' || c = 'í' || c = 'ó' || c = 'ú' || c = 'ñ'

/-- Python `str.lower`, restricted to the alphabet the script distinguishes:
ASCII letters and the Spanish accented letters.  Every other character is
left unchanged (anything outside this alphabet is replaced by a space by
`limpiar_texto`, and the name regex only inspects characters of this
alphabet, so the restriction is invisible to the pipeline). -/
def pyLower (c : Char) : Char :=
  if 'A' ≤ c && c ≤ 'Z' then Char.ofNat (c.toNat + 32)
  else if c = 'Á' then 'á' else if c = 'É' then 'é' else if c = 'Í' then 'í'
  else if c = 'Ó' then 'ó' else if c = 'Ú' then 'ú' else if c = 'Ñ' then 'ñ'
  else if c = 'Ü' then 'ü' else c

/-- The character action of `re.sub(r'[^a-záéíóúñ\s]', ' ', texto)` on
line 57: keep letters and whitespace, replace everything else by a space. -/
def sustituir (c : Char) : Char :=
  if esLetra c || esBlanco c then c else ' '

/-- The stop-word list `STOP_WORDS` of lines 19–26, verbatim. -/
def STOP_WORDS : List (List Char) :=
  ["el", "la", "de", "en", "y", "a", "los", "del", "se", "las",
   "por", "un", "para", "con", "no", "una", "su", "al", "es", "lo",
   "como", "más", "o", "pero", "sus", "le", "ya", "fue", "este",
   "ha", "si", "porque", "esta", "son", "entre", "cuando", "muy",
   "sin", "sobre", "también", "me", "hasta", "donde", "quien", "desde",
   "nos", "durante", "todos", "uno", "les", "ni", "contra", "otros"].map String.toList

theorem length_dropWhile_le (p : Char → Bool) (l : List Char) :
    (l.dropWhile p).length ≤ l.length := by
  induction l with
  | nil => simp
  | cons a l ih =>
    rw [List.dropWhile_cons]
    split
    · exact Nat.le_trans ih (Nat.le_succ _)
    · exact Nat.le_refl _

/-- Python `str.split()` with no separator: the maximal runs of
non-whitespace characters, in order, empty runs dropped. -/
def pySplit : List Char → List (List Char)
  | [] => []
  | c :: cs =>
    if esBlanco c then pySplit cs
    else (c :: cs.takeWhile (fun d => !esBlanco d)) :: pySplit (cs.dropWhile (fun d => !esBlanco d))
termination_by l => l.length
decreasing_by
  · simp only [List.length_cons]; omega
  · have := length_dropWhile_le (fun d => !esBlanco d) cs
    simp only [List.length_cons]; omega

/-- Python `' '.join(...)` on a list of words. -/
def joinSp : List (List Char) → List Char
  | [] => []
  | [t] => t
  | t :: ts => t ++ ' ' :: joinSp ts

/-- The token filter of line 58: `len(p) > 2 and p not in STOP_WORDS`. -/
def mantienePalabra (p : List Char) : Bool :=
  decide (2 < p.length) && !(STOP_WORDS.contains p)

/-- Body of `limpiar_texto` (lines 54–59) on character lists: lowercase,
replace characters outside `[a-záéíóúñ\s]` by spaces, split on whitespace,
keep tokens longer than 2 characters that are not stop-words, and rejoin
with single spaces. -/
def limpiarLista (l : List Char) : List Char :=
  let minusculas := l.map pyLower
  let sustituido := minusculas.map sustituir
  let palabras := (pySplit sustituido).filter mantienePalabra
  joinSp palabras

/-- `limpiar_texto` (lines 54–59). -/
def limpiar_texto (texto : String) : String :=
  String.mk (limpiarLista texto.data)

theorem pySplit_nil : pySplit [] = [] := by rw [pySplit]

theorem pyLower_of_esLetra {c : Char} (h : esLetra c = true) : pyLower c = c := by
  simp only [esLetra, Bool.or_eq_true, Bool.and_eq_true, decide_eq_true_eq] at h
  have hAZ : ¬(('A' ≤ c && c ≤ 'Z') = true) := by
    simp only [Bool.and_eq_true, decide_eq_true_eq, not_and]
    intro _ hZ
    rcases h with (((((⟨ha, _⟩ | h) | h) | h) | h) | h) | h
    · exact absurd (le_trans ha hZ) (by decide)
    all_goals subst h; exact absurd hZ (by decide)
  rcases h with (((((⟨_, hz⟩ | h) | h) | h) | h) | h) | h
  · have hne : ∀ d : Char, 'z' < d → c ≠ d := fun d hd hc => absurd (hc ▸ hz) (not_le.mpr hd)
    rw [pyLower, if_neg hAZ, if_neg (hne _ (by decide)), if_neg (hne _ (by decide)),
      if_neg (hne _ (by decide)), if_neg (hne _ (by decide)), if_neg (hne _ (by decide)),
      if_neg (hne _ (by decide)), if_neg (hne _ (by decide))]
  all_goals subst h; decide

theorem pyLower_of_esBlanco {c : Char} (h : esBlanco c = true) : pyLower c = c := by
  simp only [esBlanco, Bool.or_eq_true, decide_eq_true_eq] at h
  rcases h with ((((h | h) | h) | h) | h) | h <;> subst h <;> decide

theorem esBlanco_eq_false_of_esLetra {c : Char} (h : esLetra c = true) : esBlanco c = false := by
  cases hb : esBlanco c with
  | false => rfl
  | true =>
    simp only [esBlanco, Bool.or_eq_true, decide_eq_true_eq] at hb
    rcases hb with ((((hb | hb) | hb) | hb) | hb) | hb <;> subst hb <;> simp [esLetra] at h

theorem sustituir_out (c : Char) :
    esLetra (sustituir c) = true ∨ esBlanco (sustituir c) = true := by
  rw [sustituir]
  split
  · rename_i h
    simpa only [Bool.or_eq_true] using h
  · right; decide

theorem sustituir_fix {c : Char} (h : esLetra c = true ∨ esBlanco c = true) :
    sustituir c = c := by
  rw [sustituir, if_pos (by simpa only [Bool.or_eq_true] using h)]

theorem pySplit_tokens {l : List Char} {t : List Char} (ht : t ∈ pySplit l) :
    t ≠ [] ∧ ∀ c ∈ t, esBlanco c = false := by
  induction l using pySplit.induct with
  | case1 => simp [pySplit] at ht
  | case2 c cs h ih =>
    rw [pySplit, if_pos h] at ht
    exact ih ht
  | case3 c cs h ih =>
    rw [pySplit, if_neg h] at ht
    rcases List.mem_cons.mp ht with rfl | ht
    · refine ⟨List.cons_ne_nil _ _, ?_⟩
      intro d hd
      rcases List.mem_cons.mp hd with rfl | hd
      · exact Bool.not_eq_true _ ▸ (by simpa using h)
      · have := List.mem_takeWhile_imp hd
        simpa using this
    · exact ih ht

theorem pySplit_chars {l t : List Char} (ht : t ∈ pySplit l) {c : Char} (hc : c ∈ t) :
    c ∈ l := by
  induction l using pySplit.induct with
  | case1 => simp [pySplit] at ht
  | case2 d cs h ih =>
    rw [pySplit, if_pos h] at ht
    exact List.mem_cons_of_mem _ (ih ht)
  | case3 d cs h ih =>
    rw [pySplit, if_neg h] at ht
    rcases List.mem_cons.mp ht with rfl | ht
    · rcases List.mem_cons.mp hc with rfl | hc
      · exact List.mem_cons_self _ _
      · exact List.mem_cons_of_mem _ ((List.takeWhile_sublist _).mem hc)
    · exact List.mem_cons_of_mem _ ((List.dropWhile_sublist _).mem (ih ht))

theorem pySplit_single {t : List Char} (hne : t ≠ [])
    (hws : ∀ c ∈ t, esBlanco c = false) : pySplit t = [t] := by
  rcases t with _ | ⟨c, t'⟩
  · exact absurd rfl hne
  · have hc : ¬(esBlanco c = true) := by
      simp [hws c (List.mem_cons_self _ _)]
    have htw : t'.takeWhile (fun d => !esBlanco d) = t' := by
      rw [List.takeWhile_eq_self_iff]
      intro d hd
      simp [hws d (List.mem_cons_of_mem _ hd)]
    have hdw : t'.dropWhile (fun d => !esBlanco d) = [] := by
      rw [List.dropWhile_eq_nil_iff]
      intro d hd
      simp [hws d (List.mem_cons_of_mem _ hd)]
    rw [pySplit, if_neg hc, htw, hdw, pySplit_nil]

theorem pySplit_token_sep {t rest : List Char} (hne : t ≠ [])
    (hws : ∀ c ∈ t, esBlanco c = false) :
    pySplit (t ++ ' ' :: rest) = t :: pySplit rest := by
  rcases t with _ | ⟨c, t'⟩
  · exact absurd rfl hne
  · have hc : ¬(esBlanco c = true) := by
      simp [hws c (List.mem_cons_self _ _)]
    have hpos : ∀ d ∈ t', (fun d => !esBlanco d) d = true := by
      intro d hd
      simp [hws d (List.mem_cons_of_mem _ hd)]
    rw [List.cons_append, pySplit, if_neg hc,
      List.takeWhile_append_of_pos hpos, List.dropWhile_append_of_pos hpos]
    have h1 : (' ' :: rest).takeWhile (fun d => !esBlanco d) = [] := by
      rw [List.takeWhile_cons]; simp [esBlanco]
    have h2 : (' ' :: rest).dropWhile (fun d => !esBlanco d) = ' ' :: rest := by
      rw [List.dropWhile_cons]; simp [esBlanco]
    rw [h1, h2, List.append_nil]
    have h3 : pySplit (' ' :: rest) = pySplit rest := by
      rw [pySplit, if_pos (by decide)]
    rw [h3]

theorem pySplit_joinSp {T : List (List Char)}
    (h : ∀ t ∈ T, t ≠ [] ∧ ∀ c ∈ t, esBlanco c = false) :
    pySplit (joinSp T) = T := by
  induction T with
  | nil => exact pySplit_nil
  | cons t ts ih =>
    rcases ts with _ | ⟨t2, ts'⟩
    · have := h t (List.mem_cons_self _ _)
      rw [joinSp]
      exact pySplit_single this.1 this.2
    · have ht := h t (List.mem_cons_self _ _)
      rw [show joinSp (t :: t2 :: ts') = t ++ ' ' :: joinSp (t2 :: ts') from rfl,
        pySplit_token_sep ht.1 ht.2,
        ih (fun u hu => h u (List.mem_cons_of_mem _ hu))]

theorem joinSp_mem {T : List (List Char)} {c : Char} (hc : c ∈ joinSp T) :
    c = ' ' ∨ ∃ t ∈ T, c ∈ t := by
  induction T with
  | nil => simp [joinSp] at hc
  | cons t ts ih =>
    rcases ts with _ | ⟨t2, ts'⟩
    · rw [joinSp] at hc
      exact Or.inr ⟨t, List.mem_cons_self _ _, hc⟩
    · rw [show joinSp (t :: t2 :: ts') = t ++ ' ' :: joinSp (t2 :: ts') from rfl] at hc
      rcases List.mem_append.mp hc with hc | hc
      · exact Or.inr ⟨t, List.mem_cons_self _ _, hc⟩
      · rcases List.mem_cons.mp hc with rfl | hc
        · exact Or.inl rfl
        · rcases ih hc with h | ⟨u, hu, hcu⟩
          · exact Or.inl h
          · exact Or.inr ⟨u, List.mem_cons_of_mem _ hu, hcu⟩

theorem limpiarLista_fixed (l : List Char) :
    limpiarLista (limpiarLista l) = limpiarLista l := by
  have hT : ∀ t ∈ (pySplit ((l.map pyLower).map sustituir)).filter mantienePalabra,
      t ≠ [] ∧ ∀ c ∈ t, esBlanco c = false :=
    fun t ht => pySplit_tokens (List.mem_filter.mp ht).1
  have hLet : ∀ t ∈ (pySplit ((l.map pyLower).map sustituir)).filter mantienePalabra,
      ∀ c ∈ t, esLetra c = true := by
    intro t ht c hc
    have hmem : c ∈ (l.map pyLower).map sustituir :=
      pySplit_chars (List.mem_filter.mp ht).1 hc
    rcases List.mem_map.mp hmem with ⟨x, _, rfl⟩
    rcases sustituir_out x with h | h
    · exact h
    · exact absurd h (by simp [(hT t ht).2 _ hc])
  set T := (pySplit ((l.map pyLower).map sustituir)).filter mantienePalabra with hTdef
  have hfix : ∀ c ∈ joinSp T, pyLower c = c ∧ sustituir c = c := by
    intro c hc
    rcases joinSp_mem hc with rfl | ⟨t, ht, hct⟩
    · exact ⟨by decide, by decide⟩
    · have hl := hLet t ht c hct
      exact ⟨pyLower_of_esLetra hl, sustituir_fix (Or.inl hl)⟩
  have hmap1 : (joinSp T).map pyLower = joinSp T := by
    rw [List.map_congr_left (g := id) (fun c hc => (hfix c hc).1), List.map_id]
  have hmap2 : (joinSp T).map sustituir = joinSp T := by
    rw [List.map_congr_left (g := id) (fun c hc => (hfix c hc).2), List.map_id]
  have hfil : T.filter mantienePalabra = T :=
    List.filter_eq_self.mpr (fun t ht => (List.mem_filter.mp ht).2)
  show limpiarLista (joinSp T) = joinSp T
  rw [limpiarLista, hmap1, hmap2, pySplit_joinSp hT, hfil]

/-- C4: the text normalizer is idempotent: for every input string `t`,
`limpiar_texto (limpiar_texto t) = limpiar_texto t` — lowercasing, replacing
characters outside the accepted letter set with spaces, splitting on
whitespace, dropping tokens of length at most 2 and stop-words, and
rejoining with single spaces is a no-op on its own output. -/
theorem limpiar_texto_idempotente (t : String) :
    limpiar_texto (limpiar_texto t) = limpiar_texto t :=
  congrArg String.mk (limpiarLista_fixed t.data)

/-- Outcome of opening a file and reading it with PyPDF2 (lines 35–37):
either the concatenated text of all pages, or a raised decode/parse
error with its message. -/
inductive LecturaPdf where
  | paginas (texto : String)
  | fallo (mensaje : String)
deriving DecidableEq

/-- Python `str.strip()`: drop whitespace from both ends. -/
def pyStrip (l : List Char) : List Char :=
  ((l.dropWhile esBlanco).reverse.dropWhile esBlanco).reverse

/-- `extraer_texto_pdf` (lines 32–41): the `try` block joins the page
texts; a text whose stripped length exceeds 50 is returned, otherwise
`None`; any exception is caught, reported, and turned into `None`. -/
def extraer_texto_pdf : LecturaPdf → Option String
  | .paginas texto => if 50 < (pyStrip texto.data).length then some texto else none
  | .fallo _ => none

/-- Python `str.upper` on the same restricted alphabet as `pyLower`. -/
def pyUpper (c : Char) : Char :=
  if 'a' ≤ c && c ≤ 'z' then Char.ofNat (c.toNat - 32)
  else if c = 'á' then 'Á' else if c = 'é' then 'É' else if c = 'í' then 'Í'
  else if c = 'ó' then 'Ó' else if c = 'ú' then 'Ú' else if c = 'ñ' then 'Ñ'
  else if c = 'ü' then 'Ü' else c

/-- The cased characters of the restricted alphabet (Python `str.title`
treats every other character of the script's inputs as uncased). -/
def esCased (c : Char) : Bool :=
  ('a' ≤ c && c ≤ 'z') || ('A' ≤ c && c ≤ 'Z') ||
  c = 'á' || c = 'é' || c = 'í' || c = 'ó' || c = 'ú' || c = 'ñ' || c = 'ü' ||
  c = 'Á' || c = 'É' || c = 'Í' || c = 'Ó' || c = 'Ú' || c = 'Ñ' || c = 'Ü'

/-- Python `str.title`, one character at a time: a cased character is
uppercased when the previous character was uncased and lowercased
otherwise; uncased characters pass through and reset the word. -/
def pyTitleGo : Bool → List Char → List Char
  | _, [] => []
  | prev, c :: cs =>
    (if esCased c then (if prev then pyLower c else pyUpper c) else c) :: pyTitleGo (esCased c) cs

/-- Python `str.title()`. -/
def pyTitle (l : List Char) : List Char := pyTitleGo false l

/-- One attempt of `nombre\s*(?:completo)?:\s*([a-záéíóúñ\s]+)` with the
literal `nombre` already consumed; returns the capture group.  The `\s*`
runs are maximal: a shorter run would leave a whitespace character where
only `c`, `:` or (for the final `\s*`) a class character may follow, and
the class contains every whitespace character; the one genuine backtrack
is the final `\s*` giving back its last character when nothing matchable
follows it, so that the one-or-more group can still succeed. -/
def grupoNombre (rest : List Char) : Option (List Char) :=
  let r1 := rest.dropWhile esBlanco
  let r2 := if ("completo".toList).isPrefixOf r1 then r1.drop 8 else r1
  match r2 with
  | ':' :: r3 =>
    let ws := r3.takeWhile esBlanco
    let r4 := r3.dropWhile esBlanco
    let run := r4.takeWhile (fun c => esLetra c || esBlanco c)
    if !run.isEmpty then some run
    else if !ws.isEmpty then some [ws.getLastD ' ']
    else none
  | _ => none

/-- `re.search(r'nombre\s*(?:completo)?:\s*([a-záéíóúñ\s]+)', ...)` of
line 46: scan left to right, and at each position where the literal
`nombre` matches try the rest of the pattern; the first full match wins. -/
def buscarNombre : List Char → Option (List Char)
  | [] => none
  | c :: cs =>
    match (if ("nombre".toList).isPrefixOf (c :: cs) then grupoNombre ((c :: cs).drop 6)
           else none) with
    | some g => some g
    | none => buscarNombre cs

/-- Stem of `os.path.splitext`: the part before the last dot, unless every
character before that dot is itself a dot (then the whole name). -/
def pySplitextStem (s : List Char) : List Char :=
  let rev := s.reverse
  let ext := rev.takeWhile (fun c => c ≠ '.')
  if ext.length = rev.length then s
  else
    let pre := rev.drop (ext.length + 1)
    if pre.all (fun c => c = '.') then s else pre.reverse

/-- Case-insensitive literal prefix match (the `re.I` flag); the pattern
is given lowercase, so a character matches when its lowercase form is the
pattern character.  Returns the remainder after the prefix. -/
def prefijoCI : List Char → List Char → Option (List Char)
  | [], rest => some rest
  | _ :: _, [] => none
  | p :: ps, c :: cs => if pyLower c = p then prefijoCI ps cs else none

/-- `re.sub(r'^(cv|hoja|vida)_?', '', nombre, flags=re.I)` (line 52):
remove one leading `cv`/`hoja`/`vida` in any case (alternatives tried in
that order) together with one optional following underscore. -/
def quitarCv (s : List Char) : List Char :=
  match prefijoCI "cv".toList s <|> prefijoCI "hoja".toList s <|> prefijoCI "vida".toList s with
  | some r => match r with
    | '_' :: r2 => r2
    | _ => r
  | none => s

/-- `extraer_nombre` (lines 43–52).  The primary strategy runs the name
regex on the lowercased text and returns the stripped, title-cased capture
group.  The fallback takes the file name without its extension
(`os.path.basename` is the identity on the bare directory entries the
script passes), strips a leading cv/hoja/vida token with optional
underscore, turns underscores into spaces and title-cases. -/
def extraer_nombre (texto : String) (archivo : String) : String :=
  match buscarNombre (texto.data.map pyLower) with
  | some grupo => String.mk (pyTitle (pyStrip grupo))
  | none =>
    let nombre := pySplitextStem archivo.data
    String.mk (pyTitle ((quitarCv nombre).map (fun c => if c = '_' then ' ' else c)))

theorem pyTitleGo_length (b : Bool) (l : List Char) :
    (pyTitleGo b l).length = l.length := by
  induction l generalizing b with
  | nil => rfl
  | cons c cs ih => simp [pyTitleGo, ih]

/-- C7 (counterexample): on extracted text containing the literal pattern
`nombre: Ana Gómez\ncódigo: 123` the resolver does not return `Ana Gómez`:
the regex class `[a-záéíóúñ\s]` contains the line break, so the match runs
past it into the following field label. -/
theorem extraer_nombre_escenario_d_contra :
    extraer_nombre "nombre: Ana Gómez\ncódigo: 123" "ana.pdf" ≠ "Ana Gómez" := by
  decide

/-- C7 (amended): on extracted text containing the literal pattern
`nombre: Ana Gómez\ncódigo: 123` the resolver returns `Ana Gómez\nCódigo`:
the matched run of letters and whitespace extends past the line break and
through the following field label up to its colon; the ends are stripped
and each word is title-cased, internal whitespace being kept as is. -/
theorem extraer_nombre_escenario_d :
    extraer_nombre "nombre: Ana Gómez\ncódigo: 123" "ana.pdf" = "Ana Gómez\nCódigo" := by
  decide

/-- C8 (counterexample): the fallback of the name resolver does have a
failure mode: the non-empty identifier `cv.pdf` (with no name label in the
text) resolves to the empty string, because stripping the extension and
then the leading `cv` token leaves nothing. -/
theorem extraer_nombre_cv_vacio :
    ("cv.pdf" : String) ≠ "" ∧ extraer_nombre "" "cv.pdf" = "" := by
  decide

/-- C8 (amended): when no name label matches, the fallback yields a
non-empty string for every identifier whose stem still has a character
left after stripping the leading `cv`/`hoja`/`vida` token and optional
underscore (identifiers consisting of such a token alone, such as
`cv.pdf`, yield the empty string); `CV_Juan_Perez.pdf` resolves to
`Juan Perez`. -/
theorem extraer_nombre_fallback_no_vacio :
    (∀ texto archivo : String, buscarNombre (texto.data.map pyLower) = none →
      quitarCv (pySplitextStem archivo.data) ≠ [] →
      extraer_nombre texto archivo ≠ "")
    ∧ extraer_nombre "" "CV_Juan_Perez.pdf" = "Juan Perez" := by
  constructor
  · intro texto archivo hmatch hstem heq
    simp only [extraer_nombre, hmatch, pyTitle] at heq
    have hlen := congrArg (fun s => s.data.length) heq
    simp only [pyTitleGo_length, List.length_map] at hlen
    exact hstem (List.eq_nil_of_length_eq_zero hlen)
  · decide

/-- A candidate as built on lines 109–113: display name, source file and
cleaned text. -/
structure Candidato where
  nombre : String
  archivo : String
  texto : String
deriving DecidableEq

/-- The directory-scan filter of line 89: `f.endswith('.pdf')`,
case-sensitively. -/
def terminaEnPdf (f : String) : Bool :=
  (".pdf".toList).isSuffixOf f.data

/-- Lines 89 and 100–117: the `.pdf`-named entries are processed in
directory order; each text that extracts successfully yields a
`Candidato`.  The truthiness test `if texto:` of line 108 is extraction
success, since a returned text has stripped length over 50 and is in
particular nonempty. -/
def candidatosDe (entradas : List (String × LecturaPdf)) : List Candidato :=
  let pdfs := entradas.filter (fun e => terminaEnPdf e.1)
  pdfs.filterMap (fun e =>
    match extraer_texto_pdf e.2 with
    | some texto => some ⟨extraer_nombre texto e.1, e.1, limpiar_texto texto⟩
    | none => none)

/-- Tokens the `TfidfVectorizer` default analyzer extracts from one
document: lowercase, then the maximal runs of at least two word
characters (the default token pattern); on the already-cleaned corpus
texts this is whitespace splitting. -/
def fichasDoc (d : String) : List (List Char) :=
  (pySplit (d.data.map pyLower)).filter (fun t => decide (2 ≤ t.length))

/-- The two-token sequences of `ngram_range=(1, 2)`, joined by single
spaces as sklearn does. -/
def bigramas : List (List Char) → List (List Char)
  | a :: b :: rest => (a ++ ' ' :: b) :: bigramas (b :: rest)
  | _ => []

/-- All features of one document: unigrams then bigrams. -/
def ngramas (d : String) : List (List Char) :=
  fichasDoc d ++ bigramas (fichasDoc d)

/-- Term frequency: occurrences of term `t` in document `d`. -/
def tf (d : String) (t : List Char) : ℕ := (ngramas d).count t

/-- Document frequency of term `t` over the corpus. -/
def df (corpus : List String) (t : List Char) : ℕ :=
  corpus.countP (fun d => decide (0 < tf d t))

/-- Total frequency of a term across the corpus, the key of the
`max_features` selection. -/
def frecuencia (corpus : List String) (t : List Char) : ℕ :=
  (corpus.map (fun d => tf d t)).sum

/-- The fitted vocabulary of `TfidfVectorizer(max_features=100,
ngram_range=(1, 2))`: the distinct uni- and bigrams of the corpus, the
100 most frequent kept (sklearn breaks frequency ties by term order). -/
def vocabDe (corpus : List String) : List (List Char) :=
  (((corpus.flatMap ngramas).dedup).mergeSort (fun a b =>
    decide (frecuencia corpus b < frecuencia corpus a) ||
      (decide (frecuencia corpus a = frecuencia corpus b) && decide (¬ b < a)))).take 100

/-- The smoothed inverse document frequency of the vectorizer's defaults
(`smooth_idf=True`): `log((1 + n) / (1 + df)) + 1`. -/
noncomputable def idf (corpus : List String) (t : List Char) : ℝ :=
  Real.log ((1 + corpus.length) / (1 + df corpus t)) + 1

/-- One entry of the TF-IDF matrix.  The row-wise L2 normalization the
vectorizer performs afterwards is omitted: cosine similarity is invariant
under positive row scaling, and an all-zero row stays all-zero under
sklearn's normalization (zero norms are replaced by 1), so the similarity
values are unchanged. -/
noncomputable def tfidf (corpus : List String) (d : String) (t : List Char) : ℝ :=
  (tf d t : ℝ) * idf corpus t

/-- Dot product of two rows over the fitted vocabulary. -/
noncomputable def prodPunto (V : List (List Char)) (f g : List Char → ℝ) : ℝ :=
  (V.map (fun t => f t * g t)).sum

/-- sklearn `cosine_similarity` of two rows: both rows are L2-normalized —
a zero norm is replaced by 1, leaving a zero row zero — and dotted. -/
noncomputable def similitudCoseno (V : List (List Char)) (f g : List Char → ℝ) : ℝ :=
  let nf := Real.sqrt (prodPunto V f f)
  let ng := Real.sqrt (prodPunto V g g)
  prodPunto V f g / ((if nf = 0 then 1 else nf) * (if ng = 0 then 1 else ng))

/-- Score of one candidate text against the profile (line 138), with the
vocabulary and idf fitted on the joint corpus. -/
noncomputable def scoreDe (corpus : List String) (perfil d : String) : ℝ :=
  similitudCoseno (vocabDe corpus) (tfidf corpus perfil) (tfidf corpus d)

/-- Lines 130–139: the corpus is the candidate texts followed by the
cleaned profile (`textos = df['Texto'].tolist() + [perfil_limpio]`), and
the scores are the cosine similarities of the profile row against each
candidate row, in candidate order. -/
noncomputable def scoresDe (perfil : String) (cs : List Candidato) : List ℝ :=
  let perfilLimpio := limpiar_texto perfil
  let corpus := cs.map Candidato.texto ++ [perfilLimpio]
  cs.map (fun c => scoreDe corpus perfilLimpio c.texto)

/-- Line 142: `df.sort_values('Score', ascending=False)` — the candidate
rows ordered by descending score.  The sort is modelled by `mergeSort`;
no claim proved below depends on how rows with equal scores are ordered. -/
noncomputable def rankingDe (perfil : String) (entradas : List (String × LecturaPdf)) :
    List (Candidato × ℝ) :=
  let cs := candidatosDe entradas
  (cs.zip (scoresDe perfil cs)).mergeSort (fun a b => decide (b.2 ≤ a.2))

/-- Line 166: the rows of `ranking_monitores.csv` — (Nombre, Archivo,
Score), in ranking order. -/
noncomputable def exportarDe (perfil : String) (entradas : List (String × LecturaPdf)) :
    List (String × String × ℝ) :=
  (rankingDe perfil entradas).map (fun c => (c.1.nombre, c.1.archivo, c.2))

/-- The ways a run ends with no ranking: no `.pdf` entry in the folder
(line 91), no PDF could be processed (line 118), or — the defect noted in
the spec — `TfidfVectorizer.fit_transform` raising on an empty vocabulary
when every corpus text cleans to nothing. -/
inductive ErrorDeCorrida where
  | sinPdfs
  | sinCandidatos
  | vocabularioVacio
deriving DecidableEq

/-- `analizar_candidatos` (lines 65–169) on an existing directory, its
listing abstracted as `entradas`: the early `return None` paths and the
empty-vocabulary crash are the error outcomes; otherwise the sorted
ranking is produced (printed and exported). -/
noncomputable def analizar_candidatos (perfil_ideal : String)
    (entradas : List (String × LecturaPdf)) :
    Except ErrorDeCorrida (List (Candidato × ℝ)) :=
  if (entradas.filter (fun e => terminaEnPdf e.1)).isEmpty then .error .sinPdfs
  else if (candidatosDe entradas).isEmpty then .error .sinCandidatos
  else if (vocabDe ((candidatosDe entradas).map Candidato.texto
      ++ [limpiar_texto perfil_ideal])).isEmpty then .error .vocabularioVacio
  else .ok (rankingDe perfil_ideal entradas)

theorem zip_map_snd {α β : Type _} (cs : List α) (f : α → β) :
    ∀ x ∈ cs.zip (cs.map f), x.2 = f x.1 := by
  induction cs with
  | nil => simp
  | cons c cs ih =>
    intro x hx
    rw [List.map_cons, List.zip_cons_cons] at hx
    rcases List.mem_cons.mp hx with rfl | hx
    · rfl
    · exact ih x hx

theorem mem_rankingDe {perfil : String} {entradas : List (String × LecturaPdf)}
    {x : Candidato × ℝ} (hx : x ∈ rankingDe perfil entradas) :
    x ∈ (candidatosDe entradas).zip (scoresDe perfil (candidatosDe entradas)) := by
  simpa only [rankingDe, List.mem_mergeSort] using hx

theorem mem_ranking_score {perfil : String} {entradas : List (String × LecturaPdf)}
    {x : Candidato × ℝ} (hx : x ∈ rankingDe perfil entradas) :
    x.2 = scoreDe ((candidatosDe entradas).map Candidato.texto ++ [limpiar_texto perfil])
      (limpiar_texto perfil) x.1.texto := by
  have h := mem_rankingDe hx
  simp only [scoresDe] at h
  exact zip_map_snd _ _ x h

theorem candidatosDe_spec {entradas : List (String × LecturaPdf)} {c : Candidato}
    (hc : c ∈ candidatosDe entradas) :
    ∃ e ∈ entradas, terminaEnPdf e.1 = true ∧
      ∃ texto, extraer_texto_pdf e.2 = some texto ∧ c.archivo = e.1 := by
  simp only [candidatosDe] at hc
  rcases List.mem_filterMap.mp hc with ⟨e, he, hmatch⟩
  rcases List.mem_filter.mp he with ⟨hent, hpdf⟩
  refine ⟨e, hent, hpdf, ?_⟩
  cases hx : extraer_texto_pdf e.2 with
  | none => rw [hx] at hmatch; exact absurd hmatch (by simp)
  | some texto =>
    rw [hx] at hmatch
    refine ⟨texto, rfl, ?_⟩
    have := Option.some.inj hmatch
    rw [← this]

theorem nodup_fst_unico {α β : Type _} {l : List (α × β)}
    (h : (l.map Prod.fst).Nodup) {a : α} {b b2 : β}
    (h1 : (a, b) ∈ l) (h2 : (a, b2) ∈ l) : b = b2 := by
  induction l with
  | nil => simp at h1
  | cons x l ih =>
    rw [List.map_cons, List.nodup_cons] at h
    rcases List.mem_cons.mp h1 with he1 | h1 <;> rcases List.mem_cons.mp h2 with he2 | h2
    · exact (Prod.ext_iff.mp (he1.trans he2.symm)).2
    · exfalso
      apply h.1
      have hm : a ∈ l.map Prod.fst := List.mem_map_of_mem Prod.fst h2
      rwa [show a = x.1 from congrArg Prod.fst he1] at hm
    · exfalso
      apply h.1
      have hm : a ∈ l.map Prod.fst := List.mem_map_of_mem Prod.fst h1
      rwa [show a = x.1 from congrArg Prod.fst he2] at hm
    · exact ih h.2 h1 h2

/-- C6: per-file extraction failures are contained: a raised decode/parse
error is caught and becomes `None` for that file only (it never leaves
`extraer_texto_pdf`), and removing the failing entry from the batch leaves
the candidate set and the full ranking of the remaining files unchanged. -/
theorem fallo_aislado_por_archivo (perfil : String)
    (xs ys : List (String × LecturaPdf)) (f m : String) :
    extraer_texto_pdf (.fallo m) = none
    ∧ candidatosDe (xs ++ (f, .fallo m) :: ys) = candidatosDe (xs ++ ys)
    ∧ rankingDe perfil (xs ++ (f, .fallo m) :: ys) = rankingDe perfil (xs ++ ys) := by
  have hc : candidatosDe (xs ++ (f, .fallo m) :: ys) = candidatosDe (xs ++ ys) := by
    simp only [candidatosDe, List.filter_append, List.filter_cons]
    by_cases hf : terminaEnPdf f
    · simp [hf, List.filterMap_append, extraer_texto_pdf]
    · simp [hf]
  exact ⟨rfl, hc, by simp only [rankingDe, hc]⟩

/-- C10: the directory scan keeps exactly the entries whose name ends in
the lowercase string `.pdf`: every ranked candidate's source file passes
that case-sensitive test, and a name such as `Resume.PDF` fails it, so
such a file is never extracted, scored or listed. -/
theorem solo_pdf_minusculas :
    (∀ (perfil : String) (entradas : List (String × LecturaPdf)),
      (rankingDe perfil entradas).Forall (fun c => terminaEnPdf c.1.archivo = true))
    ∧ terminaEnPdf "Resume.PDF" = false := by
  constructor
  · intro perfil entradas
    rw [List.forall_iff_forall_mem]
    intro x hx
    have hc := (List.of_mem_zip (mem_rankingDe hx)).1
    rcases candidatosDe_spec hc with ⟨e, _, hpdf, _, _, harch⟩
    rw [harch]
    exact hpdf
  · decide

/-- C5: the extractor returns the text exactly when its whitespace-trimmed
length exceeds 50 characters and `None` otherwise, and a file whose
extraction yields `None` (among entries with distinct names, as in a
directory listing) is excluded from the run's output entirely: it appears
neither in the ranking nor in the exported rows. -/
theorem umbral_extraccion_y_exclusion :
    (∀ texto : String, extraer_texto_pdf (.paginas texto)
      = if 50 < (pyStrip texto.data).length then some texto else none)
    ∧ (∀ (perfil : String) (entradas : List (String × LecturaPdf)) (f : String)
        (r : LecturaPdf), (f, r) ∈ entradas → extraer_texto_pdf r = none →
        (entradas.map Prod.fst).Nodup →
        f ∉ (rankingDe perfil entradas).map (fun c => c.1.archivo)
        ∧ f ∉ (exportarDe perfil entradas).map (fun fila => fila.2.1)) := by
  constructor
  · intro texto; rfl
  · intro perfil entradas f r hmem hnone hnodup
    have hcand : ∀ c ∈ candidatosDe entradas, c.archivo ≠ f := by
      intro c hc harch
      rcases candidatosDe_spec hc with ⟨e, hent, _, texto, hsome, harch2⟩
      have he : e = (f, e.2) := by
        rw [← harch, harch2]
      rw [he] at hent
      have := nodup_fst_unico hnodup hent hmem
      rw [this] at hsome
      rw [hsome] at hnone
      exact Option.noConfusion hnone
    have hrank : f ∉ (rankingDe perfil entradas).map (fun c => c.1.archivo) := by
      intro hf
      rcases List.mem_map.mp hf with ⟨x, hx, harch⟩
      exact hcand x.1 (List.of_mem_zip (mem_rankingDe hx)).1 harch
    refine ⟨hrank, ?_⟩
    intro hf
    rcases List.mem_map.mp hf with ⟨fila, hfila, harch⟩
    rcases List.mem_map.mp ((by simpa only [exportarDe] using hfila :
      fila ∈ (rankingDe perfil entradas).map (fun c => (c.1.nombre, c.1.archivo, c.2)))) with
      ⟨x, hx, hxf⟩
    exact hcand x.1 (List.of_mem_zip (mem_rankingDe hx)).1 (by rw [← hxf] at harch; exact harch)

theorem prodPunto_nonneg {V : List (List Char)} {f g : List Char → ℝ}
    (hf : ∀ t, 0 ≤ f t) (hg : ∀ t, 0 ≤ g t) : 0 ≤ prodPunto V f g :=
  List.sum_nonneg (by
    intro x hx
    rcases List.mem_map.mp hx with ⟨t, _, rfl⟩
    exact mul_nonneg (hf t) (hg t))

theorem prodPunto_self_nonneg (V : List (List Char)) (f : List Char → ℝ) :
    0 ≤ prodPunto V f f :=
  List.sum_nonneg (by
    intro x hx
    rcases List.mem_map.mp hx with ⟨t, _, rfl⟩
    exact mul_self_nonneg _)

theorem prodPunto_cauchy (V : List (List Char)) (f g : List Char → ℝ) :
    (prodPunto V f g) ^ 2 ≤ prodPunto V f f * prodPunto V g g := by
  induction V with
  | nil => simp [prodPunto]
  | cons t V ih =>
    have hF := prodPunto_self_nonneg V f
    have hG := prodPunto_self_nonneg V g
    simp only [prodPunto, List.map_cons, List.sum_cons] at hF hG ih ⊢
    set x := f t
    set y := g t
    set s := (V.map (fun u => f u * g u)).sum
    set F := (V.map (fun u => f u * f u)).sum
    set G := (V.map (fun u => g u * g u)).sum
    rcases eq_or_lt_of_le hF with hF0 | hF0
    · have hs : s = 0 := by nlinarith [ih]
      rw [hs, ← hF0]
      nlinarith [mul_self_nonneg x, mul_self_nonneg y, hG]
    · have h1 : (0:ℝ) ≤ (x * s - F * y) ^ 2 := sq_nonneg _
      have h2 : (0:ℝ) ≤ (x * x + F) * (F * G - s ^ 2) :=
        mul_nonneg (by nlinarith [mul_self_nonneg x]) (by nlinarith [ih])
      nlinarith [h1, h2, hF0]

theorem prodPunto_zero_of_right {V : List (List Char)} {f g : List Char → ℝ}
    (h : ∀ t, g t = 0) : prodPunto V f g = 0 :=
  List.sum_eq_zero (by
    intro x hx
    rcases List.mem_map.mp hx with ⟨t, _, rfl⟩
    rw [h t, mul_zero])

theorem prodPunto_zero_of_self {V : List (List Char)} {f g : List Char → ℝ}
    (h : prodPunto V f f = 0) : prodPunto V f g = 0 := by
  induction V with
  | nil => simp [prodPunto]
  | cons t V ih =>
    have hF := prodPunto_self_nonneg V f
    simp only [prodPunto, List.map_cons, List.sum_cons] at h hF ih ⊢
    have hsq : f t * f t = 0 ∧ (V.map (fun u => f u * f u)).sum = 0 := by
      constructor <;> nlinarith [mul_self_nonneg (f t), hF]
    rw [mul_self_eq_zero.mp hsq.1, ih hsq.2, zero_mul, add_zero]

theorem similitudCoseno_mem_01 (V : List (List Char)) (f g : List Char → ℝ)
    (hf : ∀ t, 0 ≤ f t) (hg : ∀ t, 0 ≤ g t) :
    0 ≤ similitudCoseno V f g ∧ similitudCoseno V f g ≤ 1 := by
  have hF := prodPunto_self_nonneg V f
  have hG := prodPunto_self_nonneg V g
  have hDf : (0:ℝ) < (if Real.sqrt (prodPunto V f f) = 0 then 1
      else Real.sqrt (prodPunto V f f)) := by
    split
    · norm_num
    · rename_i hne
      exact lt_of_le_of_ne (Real.sqrt_nonneg _) (Ne.symm hne)
  have hDg : (0:ℝ) < (if Real.sqrt (prodPunto V g g) = 0 then 1
      else Real.sqrt (prodPunto V g g)) := by
    split
    · norm_num
    · rename_i hne
      exact lt_of_le_of_ne (Real.sqrt_nonneg _) (Ne.symm hne)
  constructor
  · exact div_nonneg (prodPunto_nonneg hf hg) (mul_pos hDf hDg).le
  · rw [similitudCoseno, div_le_one (mul_pos hDf hDg)]
    by_cases h1 : Real.sqrt (prodPunto V f f) = 0
    · have hz : prodPunto V f f = 0 := le_antisymm (Real.sqrt_eq_zero'.mp h1) hF
      rw [prodPunto_zero_of_self hz]
      exact (mul_pos hDf hDg).le
    · by_cases h2 : Real.sqrt (prodPunto V g g) = 0
      · have hz : prodPunto V g g = 0 := le_antisymm (Real.sqrt_eq_zero'.mp h2) hG
        have hz2 : prodPunto V f g = 0 := by
          have := prodPunto_zero_of_self (g := f) hz
          calc prodPunto V f g
              = prodPunto V g f := by
                simp only [prodPunto]
                congr 1
                exact List.map_congr_left (fun t _ => mul_comm _ _)
            _ = 0 := this
        rw [hz2]
        exact (mul_pos hDf hDg).le
      · have hnum : prodPunto V f g ≤ Real.sqrt (prodPunto V f f * prodPunto V g g) :=
          (Real.le_sqrt (prodPunto_nonneg hf hg) (mul_nonneg hF hG)).mpr
            (prodPunto_cauchy V f g)
        rw [Real.sqrt_mul hF] at hnum
        rw [if_neg h1, if_neg h2]
        exact hnum

theorem idf_nonneg (corpus : List String) (t : List Char) : 0 ≤ idf corpus t := by
  have hdf : (df corpus t : ℝ) ≤ corpus.length := by
    exact_mod_cast List.countP_le_length _
  have h1 : (1:ℝ) ≤ (1 + corpus.length) / (1 + df corpus t) := by
    rw [le_div_iff₀ (by positivity)]
    linarith
  have := Real.log_nonneg h1
  rw [idf]
  linarith

theorem tfidf_nonneg (corpus : List String) (d : String) (t : List Char) :
    0 ≤ tfidf corpus d t :=
  mul_nonneg (Nat.cast_nonneg _) (idf_nonneg corpus t)

theorem scoreDe_mem_01 (corpus : List String) (perfil d : String) :
    0 ≤ scoreDe corpus perfil d ∧ scoreDe corpus perfil d ≤ 1 :=
  similitudCoseno_mem_01 _ _ _ (tfidf_nonneg corpus perfil) (tfidf_nonneg corpus d)

theorem tf_texto_vacio (t : List Char) : tf "" t = 0 := by
  have hfichas : fichasDoc "" = [] := by
    simp [fichasDoc, pySplit_nil, show ("" : String).data = [] from rfl]
  simp [tf, ngramas, hfichas, bigramas]

theorem scoreDe_texto_vacio (corpus : List String) (perfil : String) :
    scoreDe corpus perfil "" = 0 := by
  have hz : ∀ t, tfidf corpus "" t = 0 := by
    intro t
    rw [tfidf, tf_texto_vacio]
    simp
  simp only [scoreDe, similitudCoseno]
  rw [prodPunto_zero_of_right hz, zero_div]

/-- C1: the final ranking is sorted by score in descending order: every
pair of adjacent rows (a, b) of the ranking satisfies
`Score b ≤ Score a`. -/
theorem ranking_ordenado_descendente (perfil : String)
    (entradas : List (String × LecturaPdf)) :
    List.Chain' (fun a b : Candidato × ℝ => b.2 ≤ a.2) (rankingDe perfil entradas) := by
  have hp := @List.sorted_mergeSort (Candidato × ℝ)
    (fun a b => decide (b.2 ≤ a.2))
    (fun a b c hab hbc => by
      simp only [decide_eq_true_eq] at hab hbc ⊢
      exact le_trans hbc hab)
    (fun a b => by
      simp only [Bool.or_eq_true, decide_eq_true_eq]
      exact le_total _ _)
    ((candidatosDe entradas).zip (scoresDe perfil (candidatosDe entradas)))
  simp only [rankingDe]
  exact (hp.imp (fun h => of_decide_eq_true h)).chain'

/-- C2: every score in the ranking produced by a run — the cosine
similarity of the candidate's TF-IDF row against the profile row fitted
on the same corpus — lies in the closed interval [0, 1]. -/
theorem scores_en_cero_uno (perfil : String) (entradas : List (String × LecturaPdf)) :
    (rankingDe perfil entradas).Forall (fun c => 0 ≤ c.2 ∧ c.2 ≤ 1) := by
  rw [List.forall_iff_forall_mem]
  intro x hx
  rw [mem_ranking_score hx]
  exact scoreDe_mem_01 _ _ _

/-- C3: a candidate whose normalized text is the empty string receives
score 0, whatever the profile: the empty document has an all-zero TF-IDF
row, and cosine similarity against a zero-norm vector is 0 rather than an
error. -/
theorem texto_vacio_score_cero (perfil : String) (entradas : List (String × LecturaPdf)) :
    (rankingDe perfil entradas).Forall (fun c => c.1.texto = "" → c.2 = 0) := by
  rw [List.forall_iff_forall_mem]
  intro x hx hvacio
  rw [mem_ranking_score hx, hvacio, scoreDe_texto_vacio]

end IAFiltros
